import Mathlib

/-!
Verification of the performance/error utilities of the repository
(`MemoryManager`, `retryWithBackoff`, `ErrorHandler` in the utilities
source file).  The TypeScript code is shallowly embedded: the JavaScript
`Map` (which iterates in insertion order) becomes an association list in
insertion order, asynchronous loads become an explicit outcome argument,
and the retry loop becomes structural recursion on the number of
remaining attempts, recording the call count and the computed delays.
-/

namespace AIGirlGen

/-! ## JavaScript `Map` primitives (insertion-ordered association list)

A JS `Map<string, V>` iterates in insertion order; `set` on an existing
key updates the value in place and keeps the original position, `set` on
a fresh key appends, `delete` removes the entry with that key, and
`keys().next().value` is the key of the first (oldest) entry. -/

/-- `map.has(k)` -/
def mapHas {V : Type} (cache : List (String × V)) (k : String) : Bool :=
  cache.any (fun p => p.1 == k)

/-- `map.get(k)` (as an `Option`; the source only calls `get` after `has`). -/
def mapGet {V : Type} (cache : List (String × V)) (k : String) : Option V :=
  (cache.find? (fun p => p.1 == k)).map (fun p => p.2)

/-- `map.set(k, v)`: update in place if the key is present, else append. -/
def mapSet {V : Type} (cache : List (String × V)) (k : String) (v : V) :
    List (String × V) :=
  if cache.any (fun p => p.1 == k) then
    cache.map (fun p => if p.1 == k then (k, v) else p)
  else
    cache ++ [(k, v)]

/-- `map.delete(k)`: remove the entry with key `k` (keys are unique in a
JS `Map`, so removing every match is the same as removing the one match). -/
def mapDelete {V : Type} (cache : List (String × V)) (k : String) :
    List (String × V) :=
  cache.filter (fun p => !(p.1 == k))

/-! ## MemoryManager (bounded FIFO image cache) -/

/-- The static state of `MemoryManager`: the `imageCache` map (in insertion
order) and `maxCacheSize` (50 in the source). -/
structure MemoryManager (V : Type) where
  imageCache : List (String × V)
  maxCacheSize : Nat

/-- `MemoryManager.addToCache`: if `imageCache.size >= maxCacheSize`, delete
the first (oldest) key, then `set` the new entry. -/
def addToCache {V : Type} (m : MemoryManager V) (src : String) (img : V) :
    MemoryManager V :=
  let cache :=
    if m.maxCacheSize ≤ m.imageCache.length then
      match m.imageCache.head? with
      | some p => mapDelete m.imageCache p.1
      | none => m.imageCache
    else m.imageCache
  { m with imageCache := mapSet cache src img }

/-- The observable outcome of one `preloadImage` call: the settled promise,
the cache state afterwards, and whether the underlying image load was
issued (`new Image()` with `img.src = src`). -/
structure PreloadOutcome (E V : Type) where
  result : Except E V
  state : MemoryManager V
  loaderInvoked : Bool

/-- `MemoryManager.preloadImage`: on a cache hit resolve the cached handle
without loading; otherwise issue the load (`load` is the outcome the
browser's image loader produces for this call): `onload` inserts via
`addToCache` and resolves with the image, `onerror` rejects with the cause
and leaves the cache untouched. -/
def preloadImage {E V : Type} (m : MemoryManager V) (src : String)
    (load : Except E V) : PreloadOutcome E V :=
  match mapGet m.imageCache src with
  | some img => ⟨Except.ok img, m, false⟩
  | none =>
    match load with
    | Except.ok img => ⟨Except.ok img, addToCache m src img, true⟩
    | Except.error e => ⟨Except.error e, m, true⟩

/-- `MemoryManager.clearCache` -/
def clearCache {V : Type} (m : MemoryManager V) : MemoryManager V :=
  { m with imageCache := [] }

/-- `MemoryManager.getCacheSize` -/
def getCacheSize {V : Type} (m : MemoryManager V) : Nat :=
  m.imageCache.length

/-- One cache operation, for stating invariants over arbitrary call
sequences (`getCacheSize` is read-only and does not appear). -/
inductive CacheOp (E V : Type) where
  | preload (k : String) (load : Except E V)
  | clear

/-- Apply one operation to the cache state. -/
def runOp {E V : Type} (m : MemoryManager V) : CacheOp E V → MemoryManager V
  | CacheOp.preload k load => (preloadImage m k load).state
  | CacheOp.clear => clearCache m

/-- Apply a sequence of operations. -/
def runOps {E V : Type} (m : MemoryManager V) (ops : List (CacheOp E V)) :
    MemoryManager V :=
  ops.foldl runOp m

/-- The source's initial state: empty cache, `maxCacheSize = 50`. -/
def initMM (V : Type) : MemoryManager V := ⟨[], 50⟩

/-! ## retryWithBackoff -/

/-- A value thrown by the retry helper.  The source throws either the error
caught from the operation (`val`) or, when the loop body never ran, the
never-assigned `lastError` — the JavaScript `undefined` value (`undef`).
`configurationError` models the spec's `ConfigurationError` error kind for
invalid retry parameters; no statement of the source code constructs it. -/
inductive JSError (E : Type) where
  | val (e : E)
  | undef
  | configurationError

/-- `throw lastError` at loop exit: `undefined` when never assigned. -/
def throwLastError {E : Type} : Option E → JSError E
  | some e => JSError.val e
  | none => JSError.undef

/-- The observable trace of a `retryWithBackoff` call: the settled promise,
how many times `fn` was invoked, and the successive `setTimeout` delays. -/
structure RetryTrace (E T : Type) where
  result : Except (JSError E) T
  calls : Nat
  delays : List Nat

/-- The `for (let i = 0; i < maxRetries; i++)` loop, with `L` the number of
remaining iterations (`maxRetries - i`), `i` the attempt index, and
`lastError` the mutable local.  `fn i` is the outcome of the `i`-th
invocation of the operation.  `L = 0` inside an iteration means
`i == maxRetries - 1`: the last error is rethrown at once; otherwise the
loop waits `baseDelay * 2 ^ i` and continues. -/
def retryFrom {E T : Type} (fn : Nat → Except E T) (baseDelay : Nat) :
    Nat → Nat → Option E → RetryTrace E T
  | 0, _, lastError => ⟨Except.error (throwLastError lastError), 0, []⟩
  | L + 1, i, _ =>
    match fn i with
    | Except.ok v => ⟨Except.ok v, 1, []⟩
    | Except.error e =>
      if L = 0 then ⟨Except.error (JSError.val e), 1, []⟩
      else
        let rest := retryFrom fn baseDelay L (i + 1) (some e)
        ⟨rest.result, rest.calls + 1, baseDelay * 2 ^ i :: rest.delays⟩

/-- `retryWithBackoff(fn, maxRetries, baseDelay)`.  A non-positive
`maxRetries` is modelled by `0`: the loop body never executes either way
and `throw lastError!` throws the undefined `lastError`. -/
def retryWithBackoff {E T : Type} (fn : Nat → Except E T) (maxRetries : Nat)
    (baseDelay : Nat) : RetryTrace E T :=
  retryFrom fn baseDelay maxRetries 0 none

/-! ## ErrorHandler (bounded error log) -/

/-- The static state of `ErrorHandler`: the `errors` array, oldest first. -/
structure ErrorHandlerState (E : Type) where
  errors : List E

/-- `ErrorHandler.maxErrors` -/
def maxErrors : Nat := 100

/-- `ErrorHandler.logError`: push the new entry, then `shift()` (drop the
oldest) if the length now exceeds `maxErrors`.  (Console and localStorage
side effects carry no cache state and are omitted.) -/
def logError {E : Type} (s : ErrorHandlerState E) (e : E) :
    ErrorHandlerState E :=
  let es := s.errors ++ [e]
  if maxErrors < es.length then ⟨es.drop 1⟩ else ⟨es⟩

/-- `ErrorHandler.getRecentErrors`: `errors.slice(-10)`, the last ten
entries (all of them when fewer than ten). -/
def getRecentErrors {E : Type} (s : ErrorHandlerState E) : List E :=
  s.errors.drop (s.errors.length - 10)

/-! ## Lemmas about the map primitives and the cache -/

/-- `has = false` and `get = none` say the same thing: no entry matches. -/
lemma mapGet_none_iff {V : Type} (c : List (String × V)) (k : String) :
    mapGet c k = none ↔ mapHas c k = false := by
  simp [mapGet, mapHas, List.find?_eq_none, List.any_eq_false]

/-- A key that `has` misses is not among the stored keys. -/
lemma not_mem_keys_of_not_has {V : Type} (c : List (String × V)) (k : String)
    (h : mapHas c k = false) : k ∉ c.map Prod.fst := by
  rw [mapHas, List.any_eq_false] at h
  intro hmem
  obtain ⟨p, hp, hpk⟩ := List.mem_map.mp hmem
  exact absurd (by simp [hpk]) (h p hp)

/-- `set` of an absent key appends the new entry. -/
lemma mapSet_not_mem {V : Type} (c : List (String × V)) (k : String) (v : V)
    (h : mapHas c k = false) : mapSet c k v = c ++ [(k, v)] := by
  rw [mapHas] at h
  rw [mapSet, if_neg]
  simp [h]

/-- `set` walks past a head entry whose key differs. -/
lemma mapSet_cons_ne {V : Type} (p : String × V) (rest : List (String × V))
    (k : String) (v : V) (hpk : p.1 ≠ k) :
    mapSet (p :: rest) k v = p :: mapSet rest k v := by
  have hfalse : (p.1 == k) = false := by simp [hpk]
  simp only [mapSet, List.any_cons, hfalse, Bool.false_or]
  split_ifs with h
  · simp only [List.map_cons]
    simp [hfalse]
  · simp

/-- After `set k v`, `get k` yields `v`, whatever was there before. -/
lemma mapGet_mapSet_self {V : Type} (c : List (String × V)) (k : String)
    (v : V) : mapGet (mapSet c k v) k = some v := by
  induction c with
  | nil => simp [mapGet, mapSet]
  | cons p rest ih =>
    by_cases hpk : p.1 = k
    · simp [mapSet, mapGet, List.any_cons, hpk]
    · rw [mapSet_cons_ne p rest k v hpk]
      have hfalse : (p.1 == k) = false := by simp [hpk]
      simp only [mapGet, List.find?_cons, hfalse] at ih ⊢
      simpa using ih

/-- Deleting the head key of a key-unique list is dropping the head. -/
lemma mapDelete_cons_self {V : Type} (q : String × V)
    (rest : List (String × V)) (h : q.1 ∉ rest.map Prod.fst) :
    mapDelete (q :: rest) q.1 = rest := by
  have hall : ∀ p ∈ rest, (!(p.1 == q.1)) = true := by
    intro p hp
    have hmem : p.1 ∈ rest.map Prod.fst := List.mem_map_of_mem Prod.fst hp
    have hne : p.1 ≠ q.1 := fun hEq => h (hEq ▸ hmem)
    simp [hne]
  simp [mapDelete, List.filter_cons, List.filter_eq_self.mpr hall]

/-- What `addToCache` does to the cache of an absent key: evict the oldest
entry when full, then append the new one; the capacity is untouched. -/
lemma addToCache_not_mem_eq {V : Type} (m : MemoryManager V) (src : String)
    (img : V) (hno : mapHas m.imageCache src = false)
    (hnd : (m.imageCache.map Prod.fst).Nodup) :
    (addToCache m src img).imageCache =
      (if m.maxCacheSize ≤ m.imageCache.length then m.imageCache.tail
        else m.imageCache) ++ [(src, img)] ∧
    (addToCache m src img).maxCacheSize = m.maxCacheSize := by
  obtain ⟨c, maxN⟩ := m
  refine ⟨?_, rfl⟩
  simp only [addToCache] at *
  split_ifs with hle
  · cases c with
    | nil => simp [mapSet]
    | cons q rest =>
      have hq : q.1 ∉ rest.map Prod.fst := by
        simp only [List.map_cons, List.nodup_cons] at hnd
        exact hnd.1
      have hrest : mapHas rest src = false := by
        rw [mapHas, List.any_eq_false] at hno ⊢
        exact fun p hp => hno p (List.mem_cons_of_mem q hp)
      simp only [List.head?_cons]
      rw [mapDelete_cons_self q rest hq, mapSet_not_mem rest src img hrest]
      simp
  · rw [mapSet_not_mem c src img hno]

/-- Inserting an absent key preserves key uniqueness and the size bound,
as long as the capacity is at least one. -/
lemma addToCache_inv {V : Type} (m : MemoryManager V) (src : String) (img : V)
    (hno : mapHas m.imageCache src = false)
    (hnd : (m.imageCache.map Prod.fst).Nodup)
    (hlen : m.imageCache.length ≤ m.maxCacheSize)
    (hmax : 1 ≤ m.maxCacheSize) :
    ((addToCache m src img).imageCache.map Prod.fst).Nodup ∧
    (addToCache m src img).imageCache.length ≤ m.maxCacheSize := by
  obtain ⟨heq, -⟩ := addToCache_not_mem_eq m src img hno hnd
  rw [heq]
  have hsub : (if m.maxCacheSize ≤ m.imageCache.length then m.imageCache.tail
      else m.imageCache).Sublist m.imageCache := by
    split_ifs
    · exact List.tail_sublist m.imageCache
    · exact List.Sublist.refl m.imageCache
  have hndsub : ((if m.maxCacheSize ≤ m.imageCache.length then m.imageCache.tail
      else m.imageCache).map Prod.fst).Nodup := (hsub.map Prod.fst).nodup hnd
  have hnosub : src ∉ (if m.maxCacheSize ≤ m.imageCache.length then
      m.imageCache.tail else m.imageCache).map Prod.fst :=
    fun hmem => not_mem_keys_of_not_has m.imageCache src hno
      ((hsub.map Prod.fst).mem hmem)
  constructor
  · rw [List.map_append, List.nodup_append]
    refine ⟨hndsub, List.nodup_singleton src, ?_⟩
    intro x hx hx1
    simp only [List.map_cons, List.map_nil, List.mem_singleton] at hx1
    exact hnosub (hx1 ▸ hx)
  · rw [List.length_append]
    split_ifs with hle
    · rw [List.length_tail]
      simp only [List.length_singleton]
      omega
    · simp only [List.length_singleton]
      omega

/-! ## Lemmas about the retry loop -/

/-- Peeling the first delay off an exponential backoff schedule. -/
lemma range_map_pow_succ (d i n : Nat) :
    (List.range (n + 1)).map (fun j => d * 2 ^ (i + j)) =
      d * 2 ^ i :: (List.range n).map (fun j => d * 2 ^ (i + 1 + j)) := by
  rw [List.range_succ_eq_map, List.map_cons, List.map_map]
  congr 1
  apply List.map_congr_left
  intro j _
  have h : i + Nat.succ j = i + 1 + j := by omega
  simp [Function.comp, h]

/-- One-step unfolding of the retry loop when at least one attempt remains. -/
lemma retryFrom_succ {E T : Type} (fn : Nat → Except E T) (d L i : Nat)
    (le : Option E) :
    retryFrom fn d (L + 1) i le =
      match fn i with
      | Except.ok v => ⟨Except.ok v, 1, []⟩
      | Except.error e =>
        if L = 0 then ⟨Except.error (JSError.val e), 1, []⟩
        else
          let rest := retryFrom fn d L (i + 1) (some e)
          ⟨rest.result, rest.calls + 1, d * 2 ^ i :: rest.delays⟩ := rfl

/-- An always-failing operation: the loop runs all `L` remaining attempts,
rethrows the error of the last one, and waits the exponential schedule
between consecutive attempts. -/
lemma retryFrom_allFail {E T : Type} (errs : Nat → E) (d : Nat) :
    ∀ (L i : Nat) (le : Option E), 1 ≤ L →
      retryFrom (E := E) (T := T) (fun k => Except.error (errs k)) d L i le =
        ⟨Except.error (JSError.val (errs (i + L - 1))), L,
          (List.range (L - 1)).map (fun j => d * 2 ^ (i + j))⟩ := by
  intro L
  induction L with
  | zero => intro i le h; omega
  | succ L ih =>
    intro i le _
    cases L with
    | zero => simp [retryFrom_succ]
    | succ L' =>
      have hrec := ih (i + 1) (some (errs i)) (Nat.le_add_left 1 L')
      rw [retryFrom_succ]
      simp [hrec, range_map_pow_succ]
      congr 1
      omega

/-- An operation that fails on every attempt before `s` and succeeds at
attempt `s`: if `s` lies within the remaining budget, the loop returns the
success after `s - i + 1` invocations. -/
lemma retryFrom_succeedsAt {E T : Type} (errs : Nat → E) (v : T) (s d : Nat) :
    ∀ (L i : Nat) (le : Option E), i ≤ s → s < i + L →
      retryFrom (fun k => if k < s then Except.error (errs k) else Except.ok v)
          d L i le =
        ⟨Except.ok v, s - i + 1, (List.range (s - i)).map (fun j => d * 2 ^ (i + j))⟩ := by
  intro L
  induction L with
  | zero => intro i le h1 h2; omega
  | succ L ih =>
    intro i le h1 h2
    by_cases his : i < s
    · cases L with
      | zero => omega
      | succ L' =>
        have hrec := ih (i + 1) (some (errs i)) (by omega) (by omega)
        have hsi : s - i = s - (i + 1) + 1 := by omega
        have hdel : (List.range (s - i)).map (fun j => d * 2 ^ (i + j)) =
            d * 2 ^ i :: (List.range (s - (i + 1))).map (fun j => d * 2 ^ (i + 1 + j)) := by
          rw [hsi]
          exact range_map_pow_succ d i (s - (i + 1))
        have hcalls : s - (i + 1) + 1 + 1 = s - i + 1 := by omega
        rw [retryFrom_succ]
        simp [his, hrec, hcalls, hdel]
    · have hieq : i = s := by omega
      subst hieq
      simp [retryFrom_succ]

/-- The loop makes at least one call whenever at least one attempt remains. -/
lemma retryFrom_calls_pos {E T : Type} (fn : Nat → Except E T) (d : Nat) :
    ∀ (L i : Nat) (le : Option E), 1 ≤ L → 1 ≤ (retryFrom fn d L i le).calls := by
  intro L i le hL
  cases L with
  | zero => omega
  | succ L =>
    cases hfn : fn i with
    | ok v => simp [retryFrom_succ, hfn]
    | error e =>
      cases L with
      | zero => simp [retryFrom_succ, hfn]
      | succ L' =>
        rw [retryFrom_succ]
        simp [hfn]

/-- For every operation, the recorded delays follow the exponential
schedule: the `j`-th delay (counting from the current attempt index `i`)
is `d * 2 ^ (i + j)`, and there is one delay per call except the last. -/
lemma retryFrom_delays_schedule {E T : Type} (fn : Nat → Except E T) (d : Nat) :
    ∀ (L i : Nat) (le : Option E),
      (retryFrom fn d L i le).delays =
        (List.range ((retryFrom fn d L i le).calls - 1)).map
          (fun j => d * 2 ^ (i + j)) := by
  intro L
  induction L with
  | zero => intro i le; simp [retryFrom]
  | succ L ih =>
    intro i le
    cases hfn : fn i with
    | ok v => simp [retryFrom_succ, hfn]
    | error e =>
      cases L with
      | zero => simp [retryFrom_succ, hfn]
      | succ L' =>
        have hrec := ih (i + 1) (some e)
        have hpos := retryFrom_calls_pos fn d (L' + 1) (i + 1) (some e)
          (Nat.le_add_left 1 L')
        have hc : (retryFrom fn d (L' + 1) (i + 1) (some e)).calls - 1 + 1 =
            (retryFrom fn d (L' + 1) (i + 1) (some e)).calls := by omega
        rw [retryFrom_succ]
        simp [hfn]
        rw [hrec]
        nth_rewrite 2 [← hc]
        rw [range_map_pow_succ]

/-! ## Claims about the retry executor -/

/-- C2: For every operation that fails on every attempt and every
`maxAttempts ≥ 1`, `retryWithBackoff` invokes the operation exactly
`maxAttempts` times and fails with the error produced by the final
(`maxAttempts`-th) attempt; the errors of the earlier attempts are
discarded, not aggregated. -/
theorem retry_exhaustion_last_error {E T : Type} (errs : Nat → E) (m d : Nat)
    (h : 1 ≤ m) :
    retryWithBackoff (E := E) (T := T) (fun i => Except.error (errs i)) m d =
      ⟨Except.error (JSError.val (errs (m - 1))), m,
        (List.range (m - 1)).map (fun i => d * 2 ^ i)⟩ := by
  have hall := retryFrom_allFail (T := T) errs d m 0 none h
  simpa [retryWithBackoff] using hall

theorem retry_exhaustion_last_error_witness :
    retryWithBackoff (E := Nat) (T := Unit) (fun i => Except.error i) 3 1 =
      ⟨Except.error (JSError.val 2), 3, [1, 2]⟩ := by
  simpa [List.range_succ] using
    retry_exhaustion_last_error (T := Unit) (fun i => i) 3 1 (by omega)

/-- C3: before every retried attempt the executor waits exactly
`baseDelayMs * 2 ^ i` (pure exponential backoff, no jitter), for every
operation; and with `baseDelayMs = 0` every computed delay is `0` while
all attempts are still performed. -/
theorem retry_backoff_schedule (E T : Type) :
    (∀ (fn : Nat → Except E T) (m d : Nat),
      (retryWithBackoff fn m d).delays =
        (List.range ((retryWithBackoff fn m d).calls - 1)).map
          (fun i => d * 2 ^ i)) ∧
    (∀ (errs : Nat → E) (m : Nat), 1 ≤ m →
      retryWithBackoff (T := T) (fun i => Except.error (errs i)) m 0 =
        ⟨Except.error (JSError.val (errs (m - 1))), m,
          List.replicate (m - 1) 0⟩) := by
  constructor
  · intro fn m d
    have hs := retryFrom_delays_schedule fn d m 0 none
    simpa [retryWithBackoff] using hs
  · intro errs m hm
    have hall := retryFrom_allFail (T := T) errs 0 m 0 none hm
    have hz : (List.range (m - 1)).map (fun j => (0 : Nat) * 2 ^ (0 + j)) =
        List.replicate (m - 1) 0 := by
      simp [List.map_const']
    simpa [retryWithBackoff, hz] using hall

theorem retry_backoff_schedule_witness :
    retryWithBackoff (E := Nat) (T := Unit) (fun i => Except.error i) 3 0 =
      ⟨Except.error (JSError.val 2), 3, [0, 0]⟩ := by
  simpa [List.replicate] using
    (retry_backoff_schedule Nat Unit).2 (fun i => i) 3 (by omega)

/-- C9: if the operation fails on every attempt before `s` and succeeds on
attempt `s` (0-based, `s < maxAttempts`), `retryWithBackoff` returns that
success and makes no further attempts: exactly `s + 1` invocations, with
the exponential delays between them. -/
theorem retry_success_stops_early {E T : Type} (errs : Nat → E) (v : T)
    (s m d : Nat) (h : s < m) :
    retryWithBackoff (fun k => if k < s then Except.error (errs k) else Except.ok v)
        m d =
      ⟨Except.ok v, s + 1, (List.range s).map (fun j => d * 2 ^ j)⟩ := by
  have hs := retryFrom_succeedsAt errs v s d m 0 none (Nat.zero_le s) (by omega)
  simpa [retryWithBackoff] using hs

theorem retry_success_stops_early_witness :
    retryWithBackoff (E := Nat) (T := Nat) (fun k => if k < 2 then Except.error k else Except.ok 7)
        3 5 =
      ⟨Except.ok 7, 3, [5, 10]⟩ := by
  simpa [List.range_succ] using
    retry_success_stops_early (fun k => k) 7 2 3 5 (by omega)

/-- C4 counterexample: with `maxAttempts = 0` the call fails fast without
invoking the operation (`calls = 0`), but the value it rejects with is the
never-assigned `lastError` — the JavaScript `undefined` — and not the
spec's `ConfigurationError`: the claim's "fails with a configuration
error" is false of the code. -/
theorem retry_zero_attempts_not_config_error :
    retryWithBackoff (E := Nat) (T := Unit) (fun i => Except.error i) 0 100 =
      ⟨Except.error JSError.undef, 0, []⟩ ∧
    (JSError.undef : JSError Nat) ≠ JSError.configurationError := by
  refine ⟨rfl, ?_⟩
  intro h
  exact JSError.noConfusion h

/-- C4 amended: calling `retryWithBackoff` with `maxAttempts ≤ 0` does not
silently succeed and does not invoke the operation: the loop body never
runs and the call rejects — but with the undefined `lastError`, not with a
`ConfigurationError` (the code defines no such error). -/
theorem retry_zero_attempts_fails_fast {E T : Type} (fn : Nat → Except E T)
    (d : Nat) :
    retryWithBackoff fn 0 d = ⟨Except.error JSError.undef, 0, []⟩ := rfl

/-! ## Invariant preservation for the cache -/

/-- One cache operation keeps the capacity, key uniqueness and the size
bound, for any capacity of at least one. -/
lemma runOp_inv {E V : Type} (m : MemoryManager V) (op : CacheOp E V)
    (hmax : 1 ≤ m.maxCacheSize)
    (hnd : (m.imageCache.map Prod.fst).Nodup)
    (hlen : m.imageCache.length ≤ m.maxCacheSize) :
    (runOp m op).maxCacheSize = m.maxCacheSize ∧
    ((runOp m op).imageCache.map Prod.fst).Nodup ∧
    (runOp m op).imageCache.length ≤ m.maxCacheSize := by
  cases op with
  | clear => simp [runOp, clearCache]
  | preload k load =>
    cases hget : mapGet m.imageCache k with
    | some img => simp [runOp, preloadImage, hget, hnd, hlen]
    | none =>
      cases load with
      | error e => simp [runOp, preloadImage, hget, hnd, hlen]
      | ok img =>
        have hno : mapHas m.imageCache k = false := (mapGet_none_iff _ _).mp hget
        have h2 := addToCache_inv m k img hno hnd hlen hmax
        have h3 := (addToCache_not_mem_eq m k img hno hnd).2
        simp only [runOp, preloadImage, hget]
        exact ⟨h3, h2.1, h2.2⟩

/-- Every sequence of cache operations keeps the capacity, key uniqueness
and the size bound. -/
lemma runOps_inv {E V : Type} :
    ∀ (ops : List (CacheOp E V)) (m : MemoryManager V),
      1 ≤ m.maxCacheSize →
      (m.imageCache.map Prod.fst).Nodup →
      m.imageCache.length ≤ m.maxCacheSize →
      (runOps m ops).maxCacheSize = m.maxCacheSize ∧
      ((runOps m ops).imageCache.map Prod.fst).Nodup ∧
      (runOps m ops).imageCache.length ≤ m.maxCacheSize := by
  intro ops
  induction ops with
  | nil => intro m h1 h2 h3; exact ⟨rfl, h2, h3⟩
  | cons op rest ih =>
    intro m h1 h2 h3
    have hstep := runOp_inv m op h1 h2 h3
    have hih := ih (runOp m op) (hstep.1 ▸ h1) hstep.2.1 (hstep.1 ▸ hstep.2.2)
    rw [hstep.1] at hih
    simpa only [runOps, List.foldl_cons] using hih

/-! ## Lemmas about the error log -/

/-- `logError` keeps the log within `maxErrors` entries. -/
lemma logError_length_le {E : Type} (s : ErrorHandlerState E) (e : E)
    (h : s.errors.length ≤ maxErrors) :
    (logError s e).errors.length ≤ maxErrors := by
  simp only [logError]
  split_ifs with hlt
  · simp only [List.length_drop, List.length_append, List.length_singleton]
    omega
  · simp only [List.length_append, List.length_singleton] at hlt ⊢
    omega

/-- Folding `logError` over any error sequence keeps the bound. -/
lemma foldl_logError_length {E : Type} :
    ∀ (es : List E) (s : ErrorHandlerState E),
      s.errors.length ≤ maxErrors →
      ((es.foldl logError s).errors).length ≤ maxErrors := by
  intro es
  induction es with
  | nil => intro s h; simpa using h
  | cons e rest ih =>
    intro s h
    simpa only [List.foldl_cons] using ih (logError s e) (logError_length_le s e h)

/-- Dropping a prefix of the old entries keeps the newest entry last. -/
lemma getLast?_drop_concat {E : Type} (l : List E) (e : E) (n : Nat)
    (h : n ≤ l.length) : ((l ++ [e]).drop n).getLast? = some e := by
  rw [List.drop_append_of_le_length h, List.getLast?_concat]

/-! ## Claims about the cache and the error log -/

/-- C1: with capacity `N = 2`, `preload(a)`, `preload(b)`, `preload(c)`
(all loads succeeding, keys distinct) leaves the cache containing exactly
`{b, c}` in insertion order — `a` is evicted — whether or not `b` was
read again via a cache-hit preload between its insertion and the
insertion of `c` (FIFO, not LRU). -/
theorem fifo_eviction_capacity_two {E V : Type} (a b c : String)
    (va vb vc : V) (hab : a ≠ b) (hac : a ≠ c) (hbc : b ≠ c) :
    (∀ load : Except E V,
      (runOps (⟨[], 2⟩ : MemoryManager V)
        [CacheOp.preload (E := E) a (Except.ok va), CacheOp.preload b (Except.ok vb),
          CacheOp.preload b load, CacheOp.preload c (Except.ok vc)]).imageCache =
        [(b, vb), (c, vc)]) ∧
    (runOps (⟨[], 2⟩ : MemoryManager V)
      [CacheOp.preload (E := E) a (Except.ok va), CacheOp.preload b (Except.ok vb),
        CacheOp.preload c (Except.ok vc)]).imageCache = [(b, vb), (c, vc)] := by
  have hba : ¬(b = a) := fun hEq => hab hEq.symm
  have hca : ¬(c = a) := fun hEq => hac hEq.symm
  have hcb : ¬(c = b) := fun hEq => hbc hEq.symm
  constructor
  · intro load
    simp [runOps, runOp, preloadImage, mapGet, mapSet, mapHas, addToCache,
      mapDelete, hab, hac, hbc, hba, hca, hcb]
  · simp [runOps, runOp, preloadImage, mapGet, mapSet, mapHas, addToCache,
      mapDelete, hab, hac, hbc, hba, hca, hcb]

theorem fifo_eviction_capacity_two_witness :
    (runOps (⟨[], 2⟩ : MemoryManager Nat)
      [CacheOp.preload (E := Nat) "a" (Except.ok 0), CacheOp.preload "b" (Except.ok 1),
        CacheOp.preload "b" (Except.error 7), CacheOp.preload "c" (Except.ok 2)]).imageCache =
      [("b", 1), ("c", 2)] ∧
    (runOps (⟨[], 2⟩ : MemoryManager Nat)
      [CacheOp.preload (E := Nat) "a" (Except.ok 0), CacheOp.preload "b" (Except.ok 1),
        CacheOp.preload "c" (Except.ok 2)]).imageCache = [("b", 1), ("c", 2)] := by
  have h := fifo_eviction_capacity_two (E := Nat) (V := Nat) "a" "b" "c" 0 1 2
    (by decide) (by decide) (by decide)
  exact ⟨h.1 (Except.error 7), h.2⟩

/-- C5: once `preload(k)` has succeeded and `k` is cached, a second
`preload(k)` returns the cached handle at once without invoking the
underlying loader again, and the handle is the one the first successful
load inserted. -/
theorem cache_hit_returns_cached_handle {E V : Type} (m : MemoryManager V)
    (k : String) (img : V) (h : mapHas m.imageCache k = false) :
    preloadImage (E := E) m k (Except.ok img) =
      ⟨Except.ok img, addToCache m k img, true⟩ ∧
    ∀ load2 : Except E V,
      preloadImage (addToCache m k img) k load2 =
        ⟨Except.ok img, addToCache m k img, false⟩ := by
  have hget : mapGet m.imageCache k = none := (mapGet_none_iff _ _).mpr h
  constructor
  · simp [preloadImage, hget]
  · intro load2
    have hget2 : mapGet (addToCache m k img).imageCache k = some img := by
      simp only [addToCache]
      exact mapGet_mapSet_self _ _ _
    simp [preloadImage, hget2]

theorem cache_hit_returns_cached_handle_witness :
    preloadImage (E := Nat) (initMM Nat) "k" (Except.ok 5) =
      ⟨Except.ok 5, addToCache (initMM Nat) "k" 5, true⟩ ∧
    preloadImage (addToCache (initMM Nat) "k" 5) "k" (Except.error 9) =
      ⟨Except.ok 5, addToCache (initMM Nat) "k" 5, false⟩ := by
  have h := cache_hit_returns_cached_handle (E := Nat) (initMM Nat) "k" 5 rfl
  exact ⟨h.1, h.2 (Except.error 9)⟩

/-- C6: when the underlying loader fails for an uncached key `k`,
`preload(k)` rejects with the underlying cause, the cache state and its
size are unchanged (`k` is not inserted), and a later `preload(k)`
invokes the loader again from scratch. -/
theorem load_failure_leaves_cache_unchanged {E V : Type} (m : MemoryManager V)
    (k : String) (e : E) (h : mapHas m.imageCache k = false) :
    preloadImage m k (Except.error e) = ⟨Except.error e, m, true⟩ ∧
    getCacheSize (preloadImage m k (Except.error e)).state = getCacheSize m ∧
    ∀ load2 : Except E V,
      (preloadImage (preloadImage m k (Except.error e)).state k load2).loaderInvoked
        = true := by
  have hget : mapGet m.imageCache k = none := (mapGet_none_iff _ _).mpr h
  refine ⟨by simp [preloadImage, hget], by simp [preloadImage, hget], ?_⟩
  intro load2
  cases load2 <;> simp [preloadImage, hget]

theorem load_failure_leaves_cache_unchanged_witness :
    preloadImage (E := Nat) (initMM Nat) "k" (Except.error 3) =
      ⟨Except.error 3, initMM Nat, true⟩ ∧
    getCacheSize (preloadImage (E := Nat) (initMM Nat) "k" (Except.error 3)).state =
      getCacheSize (initMM Nat) ∧
    (preloadImage (E := Nat)
      (preloadImage (E := Nat) (initMM Nat) "k" (Except.error 3)).state
      "k" (Except.ok 5)).loaderInvoked = true := by
  have h := load_failure_leaves_cache_unchanged (E := Nat) (initMM Nat) "k" 3 rfl
  exact ⟨h.1, h.2.1, h.2.2 (Except.ok 5)⟩

/-- C7: after every sequence of preload and clear operations from the
initial state (capacity `N = 50`), the cache keys are unique,
`0 ≤ size() ≤ 50`, and `size()` is the entry count. -/
theorem cache_invariants_hold {E V : Type} (ops : List (CacheOp E V)) :
    ((runOps (initMM V) ops).imageCache.map Prod.fst).Nodup ∧
    0 ≤ getCacheSize (runOps (initMM V) ops) ∧
    getCacheSize (runOps (initMM V) ops) ≤ 50 ∧
    getCacheSize (runOps (initMM V) ops) =
      (runOps (initMM V) ops).imageCache.length := by
  have h := runOps_inv (E := E) ops (initMM V) (by simp [initMM])
    (by simp [initMM]) (by simp [initMM])
  exact ⟨h.2.1, Nat.zero_le _, by simpa [getCacheSize, initMM] using h.2.2, rfl⟩

/-- C8: `clear()` removes all entries (`size() = 0`) and a subsequent
`preload(k)` for any key behaves as a cold cache, invoking the underlying
loader again. -/
theorem clear_empties_and_cold {E V : Type} (m : MemoryManager V) :
    getCacheSize (clearCache m) = 0 ∧
    ∀ (k : String) (load : Except E V),
      (preloadImage (clearCache m) k load).loaderInvoked = true := by
  refine ⟨rfl, ?_⟩
  intro k load
  cases load <;> simp [preloadImage, clearCache, mapGet]

/-- C10: the error log is bounded: starting from the empty log, after any
sequence of `logError` calls at most `100` entries are stored; when a new
entry would exceed the bound the oldest entry is removed first (FIFO);
and `getRecentErrors` ends with the most recently logged error. -/
theorem error_log_bounded_fifo (E : Type) :
    (∀ es : List E, ((es.foldl logError ⟨[]⟩).errors).length ≤ 100) ∧
    (∀ (s : ErrorHandlerState E) (e : E), s.errors.length ≤ 100 →
      (logError s e).errors.length ≤ 100 ∧
      (s.errors.length = 100 → (logError s e).errors = s.errors.drop 1 ++ [e]) ∧
      (getRecentErrors (logError s e)).getLast? = some e) := by
  refine ⟨fun es => foldl_logError_length es ⟨[]⟩ (by simp [maxErrors]),
    fun s e h => ⟨logError_length_le s e h, ?_, ?_⟩⟩
  · intro h100
    simp only [logError]
    rw [if_pos (by simp [maxErrors, List.length_append, h100])]
    exact List.drop_append_of_le_length (by omega)
  · have hm : maxErrors = 100 := rfl
    simp only [logError, getRecentErrors]
    split_ifs with hlt
    · simp only [List.length_drop, List.length_append, List.length_singleton,
        List.drop_drop]
      apply getLast?_drop_concat
      simp only [List.length_append, List.length_singleton] at hlt
      omega
    · apply getLast?_drop_concat
      simp only [List.length_append, List.length_singleton]
      omega

theorem error_log_bounded_fifo_witness :
    (logError (E := Nat) ⟨List.replicate 100 0⟩ 7).errors.length ≤ 100 ∧
    (logError (E := Nat) ⟨List.replicate 100 0⟩ 7).errors =
      (List.replicate 100 0).drop 1 ++ [7] ∧
    (getRecentErrors (logError (E := Nat) ⟨List.replicate 100 0⟩ 7)).getLast? =
      some 7 := by
  have h := (error_log_bounded_fifo Nat).2 ⟨List.replicate 100 0⟩ 7 (by simp)
  exact ⟨h.1, h.2.1 (by simp), h.2.2⟩

end AIGirlGen
